import Mathlib

/-!
Verification of the B-Format decoder (`src/alc/bformatdec.cpp`) from
openal-soft: the decoder-matrix construction (two constructors), the
per-block mixing pipeline, and the standalone high-frequency order-scale
calculator.  Floating-point values are modelled by exact rationals; the
claims under study are structural/dataflow properties, not rounding
properties.
-/

namespace BFormat

/-- Modelled from the spec: the compile-time maximum ambisonic order
(`MAX_AMBI_ORDER`, declared in a header outside `src/`).  The curve arrays in
`bformatdec.cpp` have type `std::array<float,MAX_AMBI_ORDER+1>` and the
third-order curve carries four explicit entries, fixing the value at 3. -/
def MAX_AMBI_ORDER : ℕ := 3

/-- Modelled from the spec: the number of ambisonic channels
(`MAX_AMBI_CHANNELS`, header outside `src/`): `(order+1)^2` channels for a
full 3D set of order `MAX_AMBI_ORDER`. -/
def MAX_AMBI_CHANNELS : ℕ := 16

/-- Modelled from the spec: the number of horizontal-only ambisonic channels
(`MAX_AMBI2D_CHANNELS`, header outside `src/`): `2*order+1` channels. -/
def MAX_AMBI2D_CHANNELS : ℕ := 7

/-- Modelled from the spec: the maximum number of output channels
(`MAX_OUTPUT_CHANNELS`, header outside `src/`); the enabled mask is a 32-bit
unsigned integer, and output channel indices must fit its bit width. -/
def MAX_OUTPUT_CHANNELS : ℕ := 16

/-- Curve A, `Ambi3DDecoderHFScale`: explicit entries `{1.0, 1.0}`; the
remaining entries of the `MAX_AMBI_ORDER+1`-sized array are value-initialized
to zero. -/
def Ambi3DDecoderHFScale : List ℚ := [1, 1, 0, 0]

/-- Curve B, `Ambi3DDecoderHFScale2O`: explicit entries
`{7.45355990e-01, 1.0, 1.0}`, final entry value-initialized to zero. -/
def Ambi3DDecoderHFScale2O : List ℚ := [745355990 / 10 ^ 9, 1, 1, 0]

/-- Curve C, `Ambi3DDecoderHFScale3O`: explicit entries
`{5.89792205e-01, 8.79693856e-01, 1.0, 1.0}`. -/
def Ambi3DDecoderHFScale3O : List ℚ :=
  [589792205 / 10 ^ 9, 879693856 / 10 ^ 9, 1, 1]

/-- Source `GetDecoderHFScales(order)`: order `>= 3` selects the third-order curve,
order `== 2` the second-order curve, anything lower the base curve. -/
def GetDecoderHFScales (order : ℕ) : List ℚ :=
  if order ≥ 3 then Ambi3DDecoderHFScale3O
  else if order = 2 then Ambi3DDecoderHFScale2O
  else Ambi3DDecoderHFScale

/-- Source `BFormatDec::GetHFOrderScales(in_order, out_order)`: the returned array is
zero-initialized, then entry `i` is set to `input[i] / target[i]` for every
`i < in_order+1`. -/
def GetHFOrderScales (in_order out_order : ℕ) : List ℚ :=
  let target := GetDecoderHFScales out_order
  let input := GetDecoderHFScales in_order
  (List.range (MAX_AMBI_ORDER + 1)).map fun i =>
    if i < in_order + 1 then input.getD i 0 / target.getD i 0 else 0

/-- Modelled from the spec: the fixed horizontal-subset table
`AmbiIndex::From2D` (header outside `src/`): the ACNs of the horizontal-only
(`|m| = l`) spherical harmonics, in index order, for orders 0..3. -/
def From2D : List ℕ := [0, 1, 3, 4, 8, 9, 15]

/-- Modelled from the spec: the per-ACN order table
`AmbiIndex::OrderFromChannel` (header outside `src/`): the ACN encodes its
harmonic order (`ACN = l*l + l + m`, so the order is `⌊√ACN⌋`). -/
def OrderFromChannel : List ℕ := [0, 1, 1, 1, 2, 2, 2, 2, 2, 3, 3, 3, 3, 3, 3, 3]

/-- Modelled from the spec: the bitmask `AMBI_PERIPHONIC_MASK` (header
outside `src/`) of ACN bits that mark height-inclusive (non-horizontal)
content: every ACN below `MAX_AMBI_CHANNELS` that is not in the 2D subset. -/
def AMBI_PERIPHONIC_MASK : ℕ := 0x7ce4

/-- The normalization conventions of `AmbDecScale` (declared outside `src/`;
the three cases are dispatched on in `GetAmbiScales`). -/
inductive AmbDecScale where
  | N3D
  | SN3D
  | FuMa
deriving DecidableEq

/-- Modelled from the spec: `AmbiScale::FromN3D` (table outside `src/`):
the internal representation is N3D-normalized, so the per-ACN divisor for
importing N3D coefficients is identically 1. -/
def FromN3D : ℕ → ℚ := fun _ => 1

/-- Source `GetAmbiScales(scaletype)`: selects the FuMa, SN3D or N3D conversion
table.  The SN3D and FuMa tables live outside `src/` (and contain irrational
square-root factors), so they are parameters of the model. -/
def GetAmbiScales (fromSN3D fromFuMa : ℕ → ℚ) : AmbDecScale → (ℕ → ℚ)
  | AmbDecScale.FuMa => fromFuMa
  | AmbDecScale.SN3D => fromSN3D
  | AmbDecScale.N3D => FromN3D

/-- The decoder configuration (`AmbDecConf`, declared outside `src/`),
carrying exactly the fields `BFormatDec::BFormatDec` reads.  `Speakers` is
the number of configured speakers (`conf->Speakers.size()`); the coefficient
matrices and order-gain arrays are total maps to keep indexing explicit. -/
structure AmbDecConf where
  Speakers : ℕ
  FreqBands : ℕ
  ChanMask : ℕ
  CoeffScale : AmbDecScale
  XOverFreq : ℚ
  XOverRatio : ℚ
  HFMatrix : ℕ → ℕ → ℚ
  LFMatrix : ℕ → ℕ → ℚ
  HFOrderGain : ℕ → ℚ
  LFOrderGain : ℕ → ℚ

/-- The decoder state built by the constructors: band flag, enabled mask,
the single-band matrix and the two dual-band matrices (each indexed as
`[output channel][coefficient position]`; the member `mMatrix` is a union
whose inactive alternative is never read, modelled here as separate
zero-initialized fields), and the input channel count. -/
structure BFormatDec where
  mDualBand : Bool
  mEnabled : ℕ
  mSingle : ℕ → ℕ → ℚ
  mDual : ℕ → (ℕ → ℚ) × (ℕ → ℚ)
  mNumChannels : ℕ

/-- Line 71: `periphonic = (conf->ChanMask & AMBI_PERIPHONIC_MASK) != 0` —
the configuration's channel mask marks periphonic (height) content. -/
def periphOf (conf : AmbDecConf) : Bool :=
  decide (conf.ChanMask &&& AMBI_PERIPHONIC_MASK ≠ 0)

/-- The working coefficient-index count: `MAX_AMBI_CHANNELS` when periphonic,
`MAX_AMBI2D_CHANNELS` otherwise (line 73). -/
def coeff_count (periphonic : Bool) : ℕ :=
  if periphonic then MAX_AMBI_CHANNELS else MAX_AMBI2D_CHANNELS

/-- The ACN for coefficient-index position `j`: `j` itself when periphonic,
otherwise `AmbiIndex::From2D[j]` (lines 82/101). -/
def acnOf (periphonic : Bool) (j : ℕ) : ℕ :=
  if periphonic then j else From2D.getD j 0

/-- Member `mEnabled`: `std::accumulate` of `mask | (1 << chan)` over the mapped
output channels, starting from `0u` (lines 67-69 and 119-121).  The shift is
that of a 32-bit unsigned accumulator. -/
def buildEnabled (chans : List ℕ) : ℕ :=
  chans.foldl (fun mask chan => mask ||| ((1 <<< chan) % 2 ^ 32)) 0

/-- The single-band coefficient-import loop (lines 80-87): `j` walks the
working coefficient-index set, `k` counts the non-skipped positions; a
position whose ACN bit is absent from the channel mask is skipped, otherwise
`row[j] = coeffs[k] / scale[acn] * gain[order(acn)]`.  Recursion is on the
number of remaining positions. -/
def decodeRowLoop (chanMask : ℕ) (periphonic : Bool) (scale gain coeffs : ℕ → ℚ) :
    ℕ → ℕ → ℕ → (ℕ → ℚ) → (ℕ → ℚ)
  | 0, _, _, row => row
  | cnt + 1, j, k, row =>
    if chanMask.testBit (acnOf periphonic j) then
      decodeRowLoop chanMask periphonic scale gain coeffs cnt (j + 1) (k + 1)
        (Function.update row j
          (coeffs k / scale (acnOf periphonic j) *
            gain (OrderFromChannel.getD (acnOf periphonic j) 0)))
    else
      decodeRowLoop chanMask periphonic scale gain coeffs cnt (j + 1) k row

/-- The dual-band coefficient-import loop (lines 99-108): same walk as the
single-band loop, but each non-skipped position stores the high-band value
multiplied by `ratio` and the low-band value divided by `ratio` into the two
rows with the same `k`. -/
def decodeDualRowLoop (chanMask : ℕ) (periphonic : Bool)
    (scale hfGain lfGain hfCoeffs lfCoeffs : ℕ → ℚ) (ratio : ℚ) :
    ℕ → ℕ → ℕ → (ℕ → ℚ) × (ℕ → ℚ) → (ℕ → ℚ) × (ℕ → ℚ)
  | 0, _, _, rows => rows
  | cnt + 1, j, k, rows =>
    if chanMask.testBit (acnOf periphonic j) then
      decodeDualRowLoop chanMask periphonic scale hfGain lfGain hfCoeffs lfCoeffs ratio
        cnt (j + 1) (k + 1)
        (Function.update rows.1 j
            (hfCoeffs k / scale (acnOf periphonic j) *
              hfGain (OrderFromChannel.getD (acnOf periphonic j) 0) * ratio),
          Function.update rows.2 j
            (lfCoeffs k / scale (acnOf periphonic j) *
              lfGain (OrderFromChannel.getD (acnOf periphonic j) 0) / ratio))
    else
      decodeDualRowLoop chanMask periphonic scale hfGain lfGain hfCoeffs lfCoeffs ratio
        cnt (j + 1) k rows

/-- The single-band matrix-build loop over speakers (lines 77-88): the
zero-initialized matrix gets the row of output channel `chanmap[i]` rebound
by that speaker's coefficient-import loop, for each `i` in speaker order. -/
def buildSingleMatrix (conf : AmbDecConf) (coeff_scale : ℕ → ℚ) (periphonic : Bool)
    (chanmap : ℕ → ℕ) : ℕ → ℕ → ℚ :=
  (List.range conf.Speakers).foldl
    (fun mtx i =>
      Function.update mtx (chanmap i)
        (decodeRowLoop conf.ChanMask periphonic coeff_scale conf.HFOrderGain
          (conf.HFMatrix i) (coeff_count periphonic) 0 0 (mtx (chanmap i))))
    (fun _ _ => 0)

/-- The dual-band matrix-build loop over speakers (lines 96-109): like the
single-band loop, but each output channel owns a (high, low) pair of rows. -/
def buildDualMatrix (conf : AmbDecConf) (coeff_scale : ℕ → ℚ) (periphonic : Bool)
    (ratio : ℚ) (chanmap : ℕ → ℕ) : ℕ → (ℕ → ℚ) × (ℕ → ℚ) :=
  (List.range conf.Speakers).foldl
    (fun mtx i =>
      Function.update mtx (chanmap i)
        (decodeDualRowLoop conf.ChanMask periphonic coeff_scale conf.HFOrderGain
          conf.LFOrderGain (conf.HFMatrix i) (conf.LFMatrix i) ratio
          (coeff_count periphonic) 0 0 (mtx (chanmap i))))
    (fun _ => (fun _ => 0, fun _ => 0))

/-- Constructor `BFormatDec::BFormatDec(conf, allow_2band, inchans, srate, chanmap)`
(Contract A, lines 52-111).  The SN3D/FuMa conversion tables and `std::pow`
live outside `src/`, so they are parameters: `pow10` models `x ↦ 10^x` (the
code computes `ratio = std::pow(10.0f, conf->XOverRatio / 40.0f)`).  The
sample-rate argument only parametrizes the opaque crossover filters and is
dropped.  The matrix member is a zero-initialized union of the single-band
and dual-band layouts; the unused alternative (never read) is modelled as
staying zero. -/
def mkA (fromSN3D fromFuMa : ℕ → ℚ) (pow10 : ℚ → ℚ) (conf : AmbDecConf)
    (allow_2band : Bool) (inchans : ℕ) (chanmap : ℕ → ℕ) : BFormatDec :=
  let dual := allow_2band && decide (conf.FreqBands = 2)
  let periphonic : Bool := periphOf conf
  let coeff_scale := GetAmbiScales fromSN3D fromFuMa conf.CoeffScale
  { mDualBand := dual,
    mEnabled := buildEnabled ((List.range conf.Speakers).map chanmap),
    mSingle :=
      if dual then fun _ _ => 0
      else buildSingleMatrix conf coeff_scale periphonic chanmap,
    mDual :=
      if dual then
        buildDualMatrix conf coeff_scale periphonic (pow10 (conf.XOverRatio / 40)) chanmap
      else fun _ => (fun _ => 0, fun _ => 0),
    mNumChannels := inchans }

/-- Constructor `BFormatDec::BFormatDec(inchans, chancoeffs, chanmap)` (Contract B, lines
113-133): for each channel-map entry in order, `std::copy_n` copies the first
`inchans` coefficients of the same-position table row into that output
channel's single-band matrix row (the rest of the row is left as it was). -/
def mkB (inchans : ℕ) (chancoeffs : ℕ → ℕ → ℚ) (chanmap : List ℕ) : BFormatDec :=
  let mtx := chanmap.enum.foldl
    (fun (mtx : ℕ → ℕ → ℚ) pc =>
      Function.update mtx pc.2
        (fun j => if j < inchans then chancoeffs pc.1 j else mtx pc.2 j))
    (fun _ _ => (0 : ℚ))
  { mDualBand := false, mEnabled := buildEnabled chanmap, mSingle := mtx,
    mDual := fun _ => (fun _ => 0, fun _ => 0), mNumChannels := inchans }

/-- Modelled from the spec: the weighted-sum mixer `MixRowSamples` (outside
`src/`): given an output span of `todo` samples, a gain row of `numGains`
entries and the input channel buffers, it accumulates
`Σ gain[c] * input[c][n]` into the output for all `n`. -/
def MixRowSamples (out : ℕ → ℚ) (gains : ℕ → ℚ) (numGains : ℕ)
    (ins : ℕ → ℕ → ℚ) (todo : ℕ) : ℕ → ℚ :=
  fun n =>
    if n < todo then out n + ∑ c ∈ Finset.range numGains, gains c * ins c n
    else out n

/-- The single-band half of `BFormatDec::process` (lines 163-175): walk the
output buffers in order while shifting the enabled mask right; a buffer whose
low mask bit is set receives one `MixRowSamples` accumulation from the row of
the advancing matrix pointer. -/
def processLoopSingle (mtx : ℕ → ℕ → ℚ) (numCh : ℕ) (ins : ℕ → ℕ → ℚ)
    (todo : ℕ) : ℕ → ℕ → ℕ → (ℕ → ℕ → ℚ) → (ℕ → ℕ → ℚ)
  | 0, _, _, bufs => bufs
  | cnt + 1, idx, enabled, bufs =>
    processLoopSingle mtx numCh ins todo cnt (idx + 1) (enabled / 2)
      (if enabled % 2 = 1 then
        Function.update bufs idx (MixRowSamples (bufs idx) (mtx idx) numCh ins todo)
      else bufs)

/-- The dual-band half of `BFormatDec::process` (lines 147-161): same walk,
but an enabled buffer receives the high-band accumulation over the high-band
scratch buffers followed by the low-band accumulation over the low-band
scratch buffers. -/
def processLoopDual (hfm lfm : ℕ → ℕ → ℚ) (numCh : ℕ) (hfS lfS : ℕ → ℕ → ℚ)
    (todo : ℕ) : ℕ → ℕ → ℕ → (ℕ → ℕ → ℚ) → (ℕ → ℕ → ℚ)
  | 0, _, _, bufs => bufs
  | cnt + 1, idx, enabled, bufs =>
    processLoopDual hfm lfm numCh hfS lfS todo cnt (idx + 1) (enabled / 2)
      (if enabled % 2 = 1 then
        Function.update bufs idx
          (MixRowSamples
            (MixRowSamples (bufs idx) (hfm idx) numCh hfS todo)
            (lfm idx) numCh lfS todo)
      else bufs)

/-- Source `BFormatDec::process(OutBuffer, InSamples, SamplesToDo)` (lines 136-176).
The crossover filter is an opaque external component; `filt` models its
`process` contract from the spec: from a filter state and one channel's block
it produces the advanced state and the high/low band buffers.  In dual-band
mode every input channel is first run through its own filter (advancing that
filter's state) to fill the scratch buffers, then the enabled outputs are
mixed; in single-band mode the filters are untouched and the inputs are mixed
directly.  Returns the filter states and the output buffers after the call. -/
def process {σ : Type} (filt : σ → (ℕ → ℚ) → ℕ → σ × (ℕ → ℚ) × (ℕ → ℚ))
    (dec : BFormatDec) (xover : ℕ → σ) (nOut : ℕ) (outBufs : ℕ → ℕ → ℚ)
    (ins : ℕ → ℕ → ℚ) (todo : ℕ) : (ℕ → σ) × (ℕ → ℕ → ℚ) :=
  if dec.mDualBand then
    let hfS : ℕ → ℕ → ℚ := fun i => (filt (xover i) (ins i) todo).2.1
    let lfS : ℕ → ℕ → ℚ := fun i => (filt (xover i) (ins i) todo).2.2
    let xover' : ℕ → σ := fun i =>
      if i < dec.mNumChannels then (filt (xover i) (ins i) todo).1 else xover i
    (xover',
      processLoopDual (fun c => (dec.mDual c).1) (fun c => (dec.mDual c).2)
        dec.mNumChannels hfS lfS todo nOut 0 dec.mEnabled outBufs)
  else
    (xover,
      processLoopSingle dec.mSingle dec.mNumChannels ins todo
        nOut 0 dec.mEnabled outBufs)

/-- Population count of a natural number (number of set bits), used to state
the enabled-mask cardinality property. -/
def popcount (n : ℕ) : ℕ :=
  if h : n = 0 then 0 else n % 2 + popcount (n / 2)
termination_by n
decreasing_by exact Nat.div_lt_self (Nat.pos_of_ne_zero h) one_lt_two

/-- The number of non-skipped coefficient-index positions in `[a, b)`: the
positions whose ACN bit is present in the channel mask.  This is the value of
the import-loop counter `k` at position `b` when the loop started at `a`. -/
def kcount (chanMask : ℕ) (periphonic : Bool) (a b : ℕ) : ℕ :=
  ((Finset.Ico a b).filter fun j => chanMask.testBit (acnOf periphonic j)).card

/-- An all-ones per-ACN table, standing in for an arbitrary external
conversion table in concrete instantiations. -/
def onesTable : ℕ → ℚ := fun _ => 1

/-- A constant-one model of the external power function, adequate for
instantiations whose exponent is zero. -/
def onesQ : ℚ → ℚ := fun _ => 1

/-- A small concrete single-band decoder configuration: two speakers,
horizontal channel mask `{ACN 0, 1, 3}`, N3D coefficients. -/
def exampleConfA : AmbDecConf :=
  { Speakers := 2, FreqBands := 1, ChanMask := 11, CoeffScale := AmbDecScale.N3D,
    XOverFreq := 400, XOverRatio := 0,
    HFMatrix := fun i k => (i + 1 : ℚ) * 10 + k,
    LFMatrix := fun i k => (i + 1 : ℚ) * 100 + k,
    HFOrderGain := fun o => (1 : ℚ) + o, LFOrderGain := fun o => (2 : ℚ) + o }

/-- The same configuration declared with two frequency bands, for the
dual-band constructor path. -/
def exampleConfDual : AmbDecConf :=
  { Speakers := 2, FreqBands := 2, ChanMask := 11, CoeffScale := AmbDecScale.N3D,
    XOverFreq := 400, XOverRatio := 0,
    HFMatrix := fun i k => (i + 1 : ℚ) * 10 + k,
    LFMatrix := fun i k => (i + 1 : ℚ) * 100 + k,
    HFOrderGain := fun o => (1 : ℚ) + o, LFOrderGain := fun o => (2 : ℚ) + o }

/-- The one-speaker configuration of the spec's first testable property:
channel mask `{ACN 0}`, HF coefficient 1.0, N3D scale, order gain 1.0. -/
def oneSpeakerConf : AmbDecConf :=
  { Speakers := 1, FreqBands := 1, ChanMask := 1, CoeffScale := AmbDecScale.N3D,
    XOverFreq := 400, XOverRatio := 0,
    HFMatrix := fun _ _ => 1, LFMatrix := fun _ _ => 1,
    HFOrderGain := fun _ => 1, LFOrderGain := fun _ => 1 }

/-- A Contract-B coefficient table whose row 0 is `[1, 0, 0, ...]` and whose
other rows are all zero. -/
def unitRowTable : ℕ → ℕ → ℚ := fun p j => if p = 0 ∧ j = 0 then 1 else 0

/-- A trivial crossover-filter model on the unit state: the high band is the
input itself and the low band is zero. -/
def idFilter : Unit → (ℕ → ℚ) → ℕ → Unit × (ℕ → ℚ) × (ℕ → ℚ) :=
  fun _ x _ => ((), x, fun _ => 0)

lemma kcount_self (chanMask : ℕ) (periphonic : Bool) (a : ℕ) :
    kcount chanMask periphonic a a = 0 := by
  simp [kcount]

lemma kcount_succ_left (chanMask : ℕ) (periphonic : Bool) {a b : ℕ} (h : a < b) :
    kcount chanMask periphonic a b =
      (if chanMask.testBit (acnOf periphonic a) then 1 else 0) +
        kcount chanMask periphonic (a + 1) b := by
  unfold kcount
  rw [← Nat.Ico_insert_succ_left h, Finset.filter_insert]
  have hnot : a ∉ (Finset.Ico (a + 1) b).filter
      (fun j => chanMask.testBit (acnOf periphonic j)) := by
    simp [Finset.mem_Ico]
  split
  · rw [Finset.card_insert_of_not_mem hnot, Nat.add_comm]
  · simp

/-- Closed form of the single-band coefficient-import loop: position `t` gets
`coeffs[k₀ + kcount j₀ t] / scale[acn] * gain[order]` exactly when it lies in
the walked range and its ACN bit is set; every other position keeps the
previous row content. -/
lemma decodeRowLoop_apply (chanMask : ℕ) (periphonic : Bool)
    (scale gain coeffs : ℕ → ℚ) :
    ∀ (cnt j k : ℕ) (row : ℕ → ℚ) (t : ℕ),
      decodeRowLoop chanMask periphonic scale gain coeffs cnt j k row t =
        if j ≤ t ∧ t < j + cnt ∧ chanMask.testBit (acnOf periphonic t) then
          coeffs (k + kcount chanMask periphonic j t) / scale (acnOf periphonic t) *
            gain (OrderFromChannel.getD (acnOf periphonic t) 0)
        else row t := by
  intro cnt
  induction cnt with
  | zero =>
    intro j k row t
    rw [decodeRowLoop, if_neg]
    rintro ⟨h1, h2, -⟩
    omega
  | succ cnt ih =>
    intro j k row t
    rw [decodeRowLoop]
    by_cases hbit : chanMask.testBit (acnOf periphonic j)
    · rw [if_pos hbit, ih]
      by_cases ht : t = j
      · subst ht
        rw [if_neg (by omega), if_pos ⟨le_refl t, by omega, hbit⟩]
        rw [kcount_self, Function.update_same, Nat.add_zero]
      · by_cases hlt : j < t
        · have hcond : (j + 1 ≤ t ∧ t < j + 1 + cnt ∧
              chanMask.testBit (acnOf periphonic t)) ↔
              (j ≤ t ∧ t < j + (cnt + 1) ∧
                chanMask.testBit (acnOf periphonic t)) := by
            constructor
            · rintro ⟨h1, h2, h3⟩; exact ⟨by omega, by omega, h3⟩
            · rintro ⟨h1, h2, h3⟩; exact ⟨by omega, by omega, h3⟩
          by_cases hc : j + 1 ≤ t ∧ t < j + 1 + cnt ∧
              chanMask.testBit (acnOf periphonic t)
          · rw [if_pos hc, if_pos (hcond.mp hc)]
            rw [kcount_succ_left chanMask periphonic hlt, if_pos hbit,
              Nat.add_assoc]
          · rw [if_neg hc, if_neg (fun h => hc (hcond.mpr h))]
            exact Function.update_noteq ht _ row
        · rw [if_neg (by omega), if_neg (by omega)]
          exact Function.update_noteq ht _ row
    · rw [if_neg hbit, ih]
      by_cases ht : t = j
      · subst ht
        rw [if_neg (by omega), if_neg (by rintro ⟨-, -, h⟩; exact hbit h)]
      · by_cases hlt : j < t
        · have hcond : (j + 1 ≤ t ∧ t < j + 1 + cnt ∧
              chanMask.testBit (acnOf periphonic t)) ↔
              (j ≤ t ∧ t < j + (cnt + 1) ∧
                chanMask.testBit (acnOf periphonic t)) := by
            constructor
            · rintro ⟨h1, h2, h3⟩; exact ⟨by omega, by omega, h3⟩
            · rintro ⟨h1, h2, h3⟩; exact ⟨by omega, by omega, h3⟩
          by_cases hc : j + 1 ≤ t ∧ t < j + 1 + cnt ∧
              chanMask.testBit (acnOf periphonic t)
          · rw [if_pos hc, if_pos (hcond.mp hc)]
            rw [kcount_succ_left chanMask periphonic hlt, if_neg hbit,
              Nat.zero_add]
          · rw [if_neg hc, if_neg (fun h => hc (hcond.mpr h))]
        · rw [if_neg (by omega), if_neg (by omega)]

/-- Closed form of the dual-band coefficient-import loop: as for the
single-band loop, but the high row stores the ratio-multiplied value and the
low row the ratio-divided value, with the same counter `k`. -/
lemma decodeDualRowLoop_apply (chanMask : ℕ) (periphonic : Bool)
    (scale hfGain lfGain hfCoeffs lfCoeffs : ℕ → ℚ) (ratio : ℚ) :
    ∀ (cnt j k : ℕ) (rows : (ℕ → ℚ) × (ℕ → ℚ)) (t : ℕ),
      (decodeDualRowLoop chanMask periphonic scale hfGain lfGain hfCoeffs lfCoeffs
          ratio cnt j k rows).1 t =
        (if j ≤ t ∧ t < j + cnt ∧ chanMask.testBit (acnOf periphonic t) then
          hfCoeffs (k + kcount chanMask periphonic j t) / scale (acnOf periphonic t) *
            hfGain (OrderFromChannel.getD (acnOf periphonic t) 0) * ratio
        else rows.1 t) ∧
      (decodeDualRowLoop chanMask periphonic scale hfGain lfGain hfCoeffs lfCoeffs
          ratio cnt j k rows).2 t =
        (if j ≤ t ∧ t < j + cnt ∧ chanMask.testBit (acnOf periphonic t) then
          lfCoeffs (k + kcount chanMask periphonic j t) / scale (acnOf periphonic t) *
            lfGain (OrderFromChannel.getD (acnOf periphonic t) 0) / ratio
        else rows.2 t) := by
  intro cnt
  induction cnt with
  | zero =>
    intro j k rows t
    rw [decodeDualRowLoop]
    constructor <;> · rw [if_neg]; rintro ⟨h1, h2, -⟩; omega
  | succ cnt ih =>
    intro j k rows t
    rw [decodeDualRowLoop]
    by_cases hbit : chanMask.testBit (acnOf periphonic j)
    · rw [if_pos hbit]
      rcases ih (j + 1) (k + 1) _ t with ⟨ih1, ih2⟩
      rw [ih1, ih2]
      by_cases ht : t = j
      · subst ht
        have hno : ¬(t + 1 ≤ t ∧ t < t + 1 + cnt ∧
            chanMask.testBit (acnOf periphonic t) = true) := by
          rintro ⟨h1, -, -⟩; omega
        have hyes : t ≤ t ∧ t < t + (cnt + 1) ∧
            chanMask.testBit (acnOf periphonic t) = true :=
          ⟨le_refl t, by omega, hbit⟩
        rw [if_neg hno, if_neg hno, if_pos hyes, if_pos hyes,
          kcount_self, Nat.add_zero]
        exact ⟨Function.update_same _ _ _, Function.update_same _ _ _⟩
      · by_cases hlt : j < t
        · have hcond : (j + 1 ≤ t ∧ t < j + 1 + cnt ∧
              chanMask.testBit (acnOf periphonic t)) ↔
              (j ≤ t ∧ t < j + (cnt + 1) ∧
                chanMask.testBit (acnOf periphonic t)) := by
            constructor
            · rintro ⟨h1, h2, h3⟩; exact ⟨by omega, by omega, h3⟩
            · rintro ⟨h1, h2, h3⟩; exact ⟨by omega, by omega, h3⟩
          by_cases hc : j + 1 ≤ t ∧ t < j + 1 + cnt ∧
              chanMask.testBit (acnOf periphonic t)
          · rw [if_pos hc, if_pos hc, if_pos (hcond.mp hc), if_pos (hcond.mp hc),
              kcount_succ_left chanMask periphonic hlt, if_pos hbit, Nat.add_assoc]
            exact ⟨rfl, rfl⟩
          · rw [if_neg hc, if_neg hc, if_neg (fun h => hc (hcond.mpr h)),
              if_neg (fun h => hc (hcond.mpr h))]
            exact ⟨Function.update_noteq ht _ rows.1,
              Function.update_noteq ht _ rows.2⟩
        · rw [if_neg (by omega), if_neg (by omega), if_neg (by omega),
            if_neg (by omega)]
          exact ⟨Function.update_noteq ht _ rows.1,
            Function.update_noteq ht _ rows.2⟩
    · rw [if_neg hbit]
      rcases ih (j + 1) k rows t with ⟨ih1, ih2⟩
      rw [ih1, ih2]
      by_cases ht : t = j
      · subst ht
        have hno1 : ¬(t + 1 ≤ t ∧ t < t + 1 + cnt ∧
            chanMask.testBit (acnOf periphonic t) = true) := by
          rintro ⟨h1, -, -⟩; omega
        have hno2 : ¬(t ≤ t ∧ t < t + (cnt + 1) ∧
            chanMask.testBit (acnOf periphonic t) = true) := by
          rintro ⟨-, -, h⟩; exact hbit h
        rw [if_neg hno1, if_neg hno1, if_neg hno2, if_neg hno2]
        exact ⟨rfl, rfl⟩
      · by_cases hlt : j < t
        · have hcond : (j + 1 ≤ t ∧ t < j + 1 + cnt ∧
              chanMask.testBit (acnOf periphonic t)) ↔
              (j ≤ t ∧ t < j + (cnt + 1) ∧
                chanMask.testBit (acnOf periphonic t)) := by
            constructor
            · rintro ⟨h1, h2, h3⟩; exact ⟨by omega, by omega, h3⟩
            · rintro ⟨h1, h2, h3⟩; exact ⟨by omega, by omega, h3⟩
          by_cases hc : j + 1 ≤ t ∧ t < j + 1 + cnt ∧
              chanMask.testBit (acnOf periphonic t)
          · rw [if_pos hc, if_pos hc, if_pos (hcond.mp hc), if_pos (hcond.mp hc),
              kcount_succ_left chanMask periphonic hlt, if_neg hbit, Nat.zero_add]
            exact ⟨rfl, rfl⟩
          · rw [if_neg hc, if_neg hc, if_neg (fun h => hc (hcond.mpr h)),
              if_neg (fun h => hc (hcond.mpr h))]
            exact ⟨rfl, rfl⟩
        · rw [if_neg (by omega), if_neg (by omega), if_neg (by omega),
            if_neg (by omega)]
          exact ⟨rfl, rfl⟩

lemma foldl_update_not_mem {α β γ : Type _} [DecidableEq β] (key : α → β)
    (val : α → γ → γ) (l : List α) (m : β → γ) (c : β)
    (hc : ∀ y ∈ l, key y ≠ c) :
    l.foldl (fun m y => Function.update m (key y) (val y (m (key y)))) m c = m c := by
  induction l generalizing m with
  | nil => rfl
  | cons a t ih =>
    simp only [List.foldl_cons]
    rw [ih _ (fun y hy => hc y (List.mem_cons_of_mem a hy))]
    exact Function.update_noteq (Ne.symm (hc a (List.mem_cons_self a t))) _ _

lemma foldl_update_mem {α β γ : Type _} [DecidableEq β] (key : α → β)
    (val : α → γ → γ) (l : List α) (m : β → γ) (x : α) (hx : x ∈ l)
    (hnd : l.Nodup) (huniq : ∀ y ∈ l, key y = key x → y = x) :
    l.foldl (fun m y => Function.update m (key y) (val y (m (key y)))) m (key x) =
      val x (m (key x)) := by
  induction l generalizing m with
  | nil => cases hx
  | cons a t ih =>
    simp only [List.foldl_cons]
    by_cases hax : a = x
    · subst hax
      have ht : ∀ y ∈ t, key y ≠ key a := by
        intro y hy h
        rw [huniq y (List.mem_cons_of_mem a hy) h] at hy
        exact (List.nodup_cons.mp hnd).1 hy
      rw [foldl_update_not_mem key val t _ _ ht]
      exact Function.update_same _ _ _
    · have hxt : x ∈ t := by
        rcases List.mem_cons.mp hx with h | h
        · exact absurd h.symm hax
        · exact h
      rw [ih _ hxt (List.nodup_cons.mp hnd).2
        (fun y hy h => huniq y (List.mem_cons_of_mem a hy) h)]
      congr 1
      exact Function.update_noteq
        (fun h => hax (huniq a (List.mem_cons_self a t) h.symm)) _ _

lemma buildEnabled_go_lt (chans : List ℕ) :
    ∀ m : ℕ, m < 2 ^ 32 →
      chans.foldl (fun mask chan => mask ||| ((1 <<< chan) % 2 ^ 32)) m < 2 ^ 32 := by
  induction chans with
  | nil => intro m hm; simpa using hm
  | cons c t ih =>
    intro m hm
    exact ih _ (Nat.or_lt_two_pow hm (Nat.mod_lt _ (by norm_num)))

lemma buildEnabled_lt (chans : List ℕ) : buildEnabled chans < 2 ^ 32 :=
  buildEnabled_go_lt chans 0 (by norm_num)

lemma buildEnabled_go_testBit (chans : List ℕ) (hc : ∀ c ∈ chans, c < 32) :
    ∀ (m k : ℕ),
      (chans.foldl (fun mask chan => mask ||| ((1 <<< chan) % 2 ^ 32)) m).testBit k =
        (m.testBit k || decide (k ∈ chans)) := by
  induction chans with
  | nil => intro m k; simp
  | cons c t ih =>
    intro m k
    simp only [List.foldl_cons]
    rw [ih (fun x hx => hc x (List.mem_cons_of_mem c hx))]
    have hbit : ((1 <<< c) % 2 ^ 32).testBit k = decide (k = c) := by
      rw [Nat.one_shiftLeft,
        Nat.mod_eq_of_lt (Nat.pow_lt_pow_right one_lt_two
          (hc c (List.mem_cons_self c t))),
        Nat.testBit_two_pow]
      simp [eq_comm]
    rw [Nat.testBit_or, hbit]
    have hdec : decide (k ∈ c :: t) = (decide (k = c) || decide (k ∈ t)) := by
      by_cases h1 : k = c <;> by_cases h2 : k ∈ t <;> simp [h1, h2]
    rw [hdec, Bool.or_assoc]

/-- Bit `k` of the accumulated enabled mask is set exactly when `k` occurs
among the mapped output channel indices. -/
lemma buildEnabled_testBit (chans : List ℕ) (hc : ∀ c ∈ chans, c < 32) (k : ℕ) :
    (buildEnabled chans).testBit k = true ↔ k ∈ chans := by
  unfold buildEnabled
  rw [buildEnabled_go_testBit chans hc 0 k, Nat.zero_testBit, Bool.false_or,
    decide_eq_true_iff]

lemma popcount_eq_sum :
    ∀ (w n : ℕ), n < 2 ^ w →
      popcount n = ∑ i ∈ Finset.range w, (if n.testBit i then 1 else 0) := by
  intro w
  induction w with
  | zero =>
    intro n h
    interval_cases n
    rw [popcount]
    simp
  | succ w ih =>
    intro n h
    rw [popcount]
    split
    · rename_i h0
      subst h0
      simp [Nat.zero_testBit]
    · rename_i h0
      rw [Finset.sum_range_succ']
      have hdiv : n / 2 < 2 ^ w := by
        have : (2 : ℕ) ^ (w + 1) = 2 ^ w * 2 := by ring
        omega
      rw [ih (n / 2) hdiv]
      simp only [Nat.testBit_add_one, Nat.testBit_zero]
      have : (if (decide (n % 2 = 1)) = true then (1 : ℕ) else 0) = n % 2 := by
        rcases Nat.mod_two_eq_zero_or_one n with h2 | h2 <;> simp [h2]
      rw [this, Nat.add_comm]

lemma popcount_eq_card (w n : ℕ) (h : n < 2 ^ w) :
    popcount n = ((Finset.range w).filter fun i => n.testBit i).card := by
  rw [popcount_eq_sum w n h, Finset.card_filter]

/-- The popcount of the enabled mask is at most the number of distinct mapped
output channel indices. -/
lemma popcount_buildEnabled_le (chans : List ℕ) (hc : ∀ c ∈ chans, c < 32) :
    popcount (buildEnabled chans) ≤ chans.dedup.length := by
  rw [popcount_eq_card 32 _ (buildEnabled_lt chans), ← List.card_toFinset]
  apply Finset.card_le_card
  intro i hi
  rw [Finset.mem_filter] at hi
  exact List.mem_toFinset.mpr ((buildEnabled_testBit chans hc i).mp hi.2)

/-- Closed form of the single-band output walk: buffer `idx` receives one
accumulation from matrix row `idx` exactly when it lies in the walked range
and its bit of the (shifting) enabled mask is set; every other buffer is left
as it was. -/
lemma processLoopSingle_apply (mtx : ℕ → ℕ → ℚ) (numCh : ℕ) (ins : ℕ → ℕ → ℚ)
    (todo : ℕ) :
    ∀ (cnt idx0 enabled : ℕ) (bufs : ℕ → ℕ → ℚ) (idx : ℕ),
      processLoopSingle mtx numCh ins todo cnt idx0 enabled bufs idx =
        if idx0 ≤ idx ∧ idx < idx0 + cnt ∧ enabled.testBit (idx - idx0) then
          MixRowSamples (bufs idx) (mtx idx) numCh ins todo
        else bufs idx := by
  intro cnt
  induction cnt with
  | zero =>
    intro idx0 enabled bufs idx
    rw [processLoopSingle, if_neg]
    rintro ⟨h1, h2, -⟩
    omega
  | succ cnt ih =>
    intro idx0 enabled bufs idx
    rw [processLoopSingle, ih]
    by_cases h0 : enabled % 2 = 1
    · rw [if_pos h0]
      by_cases hidx : idx = idx0
      · subst hidx
        have hno : ¬(idx + 1 ≤ idx ∧ idx < idx + 1 + cnt ∧
            (enabled / 2).testBit (idx - (idx + 1)) = true) := by
          rintro ⟨h1, -, -⟩; omega
        have hyes : idx ≤ idx ∧ idx < idx + (cnt + 1) ∧
            enabled.testBit (idx - idx) = true :=
          ⟨le_refl idx, by omega, by simp [Nat.sub_self, Nat.testBit_zero, h0]⟩
        rw [if_neg hno, if_pos hyes, Function.update_same]
      · by_cases hlt : idx0 < idx
        · have harith : idx - idx0 = (idx - (idx0 + 1)) + 1 := by omega
          have hcond : (idx0 + 1 ≤ idx ∧ idx < idx0 + 1 + cnt ∧
              (enabled / 2).testBit (idx - (idx0 + 1)) = true) ↔
              (idx0 ≤ idx ∧ idx < idx0 + (cnt + 1) ∧
                enabled.testBit (idx - idx0) = true) := by
            rw [harith, Nat.testBit_add_one]
            constructor
            · rintro ⟨h1, h2, h3⟩; exact ⟨by omega, by omega, h3⟩
            · rintro ⟨h1, h2, h3⟩; exact ⟨by omega, by omega, h3⟩
          by_cases hc : idx0 + 1 ≤ idx ∧ idx < idx0 + 1 + cnt ∧
              (enabled / 2).testBit (idx - (idx0 + 1)) = true
          · rw [if_pos hc, if_pos (hcond.mp hc), Function.update_noteq hidx]
          · rw [if_neg hc, if_neg (fun h => hc (hcond.mpr h))]
            exact Function.update_noteq hidx _ bufs
        · have hno1 : ¬(idx0 + 1 ≤ idx ∧ idx < idx0 + 1 + cnt ∧
              (enabled / 2).testBit (idx - (idx0 + 1)) = true) := by
            rintro ⟨h1, -, -⟩; omega
          have hno2 : ¬(idx0 ≤ idx ∧ idx < idx0 + (cnt + 1) ∧
              enabled.testBit (idx - idx0) = true) := by
            rintro ⟨h1, -, -⟩
            exact hlt (by omega)
          rw [if_neg hno1, if_neg hno2]
          exact Function.update_noteq hidx _ bufs
    · rw [if_neg h0]
      by_cases hidx : idx = idx0
      · subst hidx
        have hno : ¬(idx + 1 ≤ idx ∧ idx < idx + 1 + cnt ∧
            (enabled / 2).testBit (idx - (idx + 1)) = true) := by
          rintro ⟨h1, -, -⟩; omega
        have hno2 : ¬(idx ≤ idx ∧ idx < idx + (cnt + 1) ∧
            enabled.testBit (idx - idx) = true) := by
          rintro ⟨-, -, h3⟩
          rw [Nat.sub_self, Nat.testBit_zero] at h3
          exact h0 (by simpa using h3)
        rw [if_neg hno, if_neg hno2]
      · by_cases hlt : idx0 < idx
        · have harith : idx - idx0 = (idx - (idx0 + 1)) + 1 := by omega
          have hcond : (idx0 + 1 ≤ idx ∧ idx < idx0 + 1 + cnt ∧
              (enabled / 2).testBit (idx - (idx0 + 1)) = true) ↔
              (idx0 ≤ idx ∧ idx < idx0 + (cnt + 1) ∧
                enabled.testBit (idx - idx0) = true) := by
            rw [harith, Nat.testBit_add_one]
            constructor
            · rintro ⟨h1, h2, h3⟩; exact ⟨by omega, by omega, h3⟩
            · rintro ⟨h1, h2, h3⟩; exact ⟨by omega, by omega, h3⟩
          by_cases hc : idx0 + 1 ≤ idx ∧ idx < idx0 + 1 + cnt ∧
              (enabled / 2).testBit (idx - (idx0 + 1)) = true
          · rw [if_pos hc, if_pos (hcond.mp hc)]
          · rw [if_neg hc, if_neg (fun h => hc (hcond.mpr h))]
        · have hno1 : ¬(idx0 + 1 ≤ idx ∧ idx < idx0 + 1 + cnt ∧
              (enabled / 2).testBit (idx - (idx0 + 1)) = true) := by
            rintro ⟨h1, -, -⟩; omega
          have hno2 : ¬(idx0 ≤ idx ∧ idx < idx0 + (cnt + 1) ∧
              enabled.testBit (idx - idx0) = true) := by
            rintro ⟨h1, -, -⟩
            exact hlt (by omega)
          rw [if_neg hno1, if_neg hno2]

/-- Closed form of the dual-band output walk: an enabled buffer receives the
high-band accumulation followed by the low-band accumulation; every other
buffer is left as it was. -/
lemma processLoopDual_apply (hfm lfm : ℕ → ℕ → ℚ) (numCh : ℕ)
    (hfS lfS : ℕ → ℕ → ℚ) (todo : ℕ) :
    ∀ (cnt idx0 enabled : ℕ) (bufs : ℕ → ℕ → ℚ) (idx : ℕ),
      processLoopDual hfm lfm numCh hfS lfS todo cnt idx0 enabled bufs idx =
        if idx0 ≤ idx ∧ idx < idx0 + cnt ∧ enabled.testBit (idx - idx0) then
          MixRowSamples
            (MixRowSamples (bufs idx) (hfm idx) numCh hfS todo)
            (lfm idx) numCh lfS todo
        else bufs idx := by
  intro cnt
  induction cnt with
  | zero =>
    intro idx0 enabled bufs idx
    rw [processLoopDual, if_neg]
    rintro ⟨h1, h2, -⟩
    omega
  | succ cnt ih =>
    intro idx0 enabled bufs idx
    rw [processLoopDual, ih]
    by_cases h0 : enabled % 2 = 1
    · rw [if_pos h0]
      by_cases hidx : idx = idx0
      · subst hidx
        have hno : ¬(idx + 1 ≤ idx ∧ idx < idx + 1 + cnt ∧
            (enabled / 2).testBit (idx - (idx + 1)) = true) := by
          rintro ⟨h1, -, -⟩; omega
        have hyes : idx ≤ idx ∧ idx < idx + (cnt + 1) ∧
            enabled.testBit (idx - idx) = true :=
          ⟨le_refl idx, by omega, by simp [Nat.sub_self, Nat.testBit_zero, h0]⟩
        rw [if_neg hno, if_pos hyes, Function.update_same]
      · by_cases hlt : idx0 < idx
        · have harith : idx - idx0 = (idx - (idx0 + 1)) + 1 := by omega
          have hcond : (idx0 + 1 ≤ idx ∧ idx < idx0 + 1 + cnt ∧
              (enabled / 2).testBit (idx - (idx0 + 1)) = true) ↔
              (idx0 ≤ idx ∧ idx < idx0 + (cnt + 1) ∧
                enabled.testBit (idx - idx0) = true) := by
            rw [harith, Nat.testBit_add_one]
            constructor
            · rintro ⟨h1, h2, h3⟩; exact ⟨by omega, by omega, h3⟩
            · rintro ⟨h1, h2, h3⟩; exact ⟨by omega, by omega, h3⟩
          by_cases hc : idx0 + 1 ≤ idx ∧ idx < idx0 + 1 + cnt ∧
              (enabled / 2).testBit (idx - (idx0 + 1)) = true
          · rw [if_pos hc, if_pos (hcond.mp hc), Function.update_noteq hidx]
          · rw [if_neg hc, if_neg (fun h => hc (hcond.mpr h))]
            exact Function.update_noteq hidx _ bufs
        · have hno1 : ¬(idx0 + 1 ≤ idx ∧ idx < idx0 + 1 + cnt ∧
              (enabled / 2).testBit (idx - (idx0 + 1)) = true) := by
            rintro ⟨h1, -, -⟩; omega
          have hno2 : ¬(idx0 ≤ idx ∧ idx < idx0 + (cnt + 1) ∧
              enabled.testBit (idx - idx0) = true) := by
            rintro ⟨h1, -, -⟩
            exact hlt (by omega)
          rw [if_neg hno1, if_neg hno2]
          exact Function.update_noteq hidx _ bufs
    · rw [if_neg h0]
      by_cases hidx : idx = idx0
      · subst hidx
        have hno : ¬(idx + 1 ≤ idx ∧ idx < idx + 1 + cnt ∧
            (enabled / 2).testBit (idx - (idx + 1)) = true) := by
          rintro ⟨h1, -, -⟩; omega
        have hno2 : ¬(idx ≤ idx ∧ idx < idx + (cnt + 1) ∧
            enabled.testBit (idx - idx) = true) := by
          rintro ⟨-, -, h3⟩
          rw [Nat.sub_self, Nat.testBit_zero] at h3
          exact h0 (by simpa using h3)
        rw [if_neg hno, if_neg hno2]
      · by_cases hlt : idx0 < idx
        · have harith : idx - idx0 = (idx - (idx0 + 1)) + 1 := by omega
          have hcond : (idx0 + 1 ≤ idx ∧ idx < idx0 + 1 + cnt ∧
              (enabled / 2).testBit (idx - (idx0 + 1)) = true) ↔
              (idx0 ≤ idx ∧ idx < idx0 + (cnt + 1) ∧
                enabled.testBit (idx - idx0) = true) := by
            rw [harith, Nat.testBit_add_one]
            constructor
            · rintro ⟨h1, h2, h3⟩; exact ⟨by omega, by omega, h3⟩
            · rintro ⟨h1, h2, h3⟩; exact ⟨by omega, by omega, h3⟩
          by_cases hc : idx0 + 1 ≤ idx ∧ idx < idx0 + 1 + cnt ∧
              (enabled / 2).testBit (idx - (idx0 + 1)) = true
          · rw [if_pos hc, if_pos (hcond.mp hc)]
          · rw [if_neg hc, if_neg (fun h => hc (hcond.mpr h))]
        · have hno1 : ¬(idx0 + 1 ≤ idx ∧ idx < idx0 + 1 + cnt ∧
              (enabled / 2).testBit (idx - (idx0 + 1)) = true) := by
            rintro ⟨h1, -, -⟩; omega
          have hno2 : ¬(idx0 ≤ idx ∧ idx < idx0 + (cnt + 1) ∧
              enabled.testBit (idx - idx0) = true) := by
            rintro ⟨h1, -, -⟩
            exact hlt (by omega)
          rw [if_neg hno1, if_neg hno2]

lemma mkA_mSingle_of_single (fromSN3D fromFuMa : ℕ → ℚ) (pow10 : ℚ → ℚ)
    (conf : AmbDecConf) (allow_2band : Bool) (inchans : ℕ) (chanmap : ℕ → ℕ)
    (hsb : (allow_2band && decide (conf.FreqBands = 2)) = false) :
    (mkA fromSN3D fromFuMa pow10 conf allow_2band inchans chanmap).mSingle =
      buildSingleMatrix conf (GetAmbiScales fromSN3D fromFuMa conf.CoeffScale)
        (periphOf conf) chanmap := by
  simp only [mkA, hsb]
  simp

lemma mkA_mDual_of_dual (fromSN3D fromFuMa : ℕ → ℚ) (pow10 : ℚ → ℚ)
    (conf : AmbDecConf) (allow_2band : Bool) (inchans : ℕ) (chanmap : ℕ → ℕ)
    (hdb : (allow_2band && decide (conf.FreqBands = 2)) = true) :
    (mkA fromSN3D fromFuMa pow10 conf allow_2band inchans chanmap).mDual =
      buildDualMatrix conf (GetAmbiScales fromSN3D fromFuMa conf.CoeffScale)
        (periphOf conf) (pow10 (conf.XOverRatio / 40)) chanmap := by
  simp only [mkA, hdb]
  simp

lemma buildSingleMatrix_row (conf : AmbDecConf) (coeff_scale : ℕ → ℚ)
    (periphonic : Bool) (chanmap : ℕ → ℕ) (i : ℕ) (hi : i < conf.Speakers)
    (hinj : ∀ i' < conf.Speakers, chanmap i' = chanmap i → i' = i) :
    buildSingleMatrix conf coeff_scale periphonic chanmap (chanmap i) =
      decodeRowLoop conf.ChanMask periphonic coeff_scale conf.HFOrderGain
        (conf.HFMatrix i) (coeff_count periphonic) 0 0 (fun _ => 0) := by
  unfold buildSingleMatrix
  exact foldl_update_mem chanmap
    (fun y row => decodeRowLoop conf.ChanMask periphonic coeff_scale
      conf.HFOrderGain (conf.HFMatrix y) (coeff_count periphonic) 0 0 row)
    (List.range conf.Speakers) (fun _ _ => 0) i (List.mem_range.mpr hi)
    (List.nodup_range _)
    (fun y hy h => hinj y (List.mem_range.mp hy) h)

lemma buildDualMatrix_row (conf : AmbDecConf) (coeff_scale : ℕ → ℚ)
    (periphonic : Bool) (ratio : ℚ) (chanmap : ℕ → ℕ) (i : ℕ)
    (hi : i < conf.Speakers)
    (hinj : ∀ i' < conf.Speakers, chanmap i' = chanmap i → i' = i) :
    buildDualMatrix conf coeff_scale periphonic ratio chanmap (chanmap i) =
      decodeDualRowLoop conf.ChanMask periphonic coeff_scale conf.HFOrderGain
        conf.LFOrderGain (conf.HFMatrix i) (conf.LFMatrix i) ratio
        (coeff_count periphonic) 0 0 (fun _ => 0, fun _ => 0) := by
  unfold buildDualMatrix
  exact foldl_update_mem chanmap
    (fun y rows => decodeDualRowLoop conf.ChanMask periphonic coeff_scale
      conf.HFOrderGain conf.LFOrderGain (conf.HFMatrix y) (conf.LFMatrix y) ratio
      (coeff_count periphonic) 0 0 rows)
    (List.range conf.Speakers) (fun _ => (fun _ => 0, fun _ => 0)) i
    (List.mem_range.mpr hi) (List.nodup_range _)
    (fun y hy h => hinj y (List.mem_range.mp hy) h)

/-- C1: Contract A, single-band mode.  For every configured speaker `i` and
every position `j` in the working coefficient-index set (full ACN order when
the channel mask has the periphonic bit, the fixed 2D subset table
otherwise): if the ACN for position `j` is absent from the channel mask
nothing is stored (the zero-initialized entry survives), and otherwise the
matrix row of output channel `chanmap[i]` holds, at position `j`, the value
`HFMatrix[i][k]` divided by the normalization-convention scale factor for
that ACN and multiplied by the HF order gain for that ACN's order, where
`k` counts the non-skipped positions before `j`. -/
theorem single_band_matrix_spec (fromSN3D fromFuMa : ℕ → ℚ) (pow10 : ℚ → ℚ)
    (conf : AmbDecConf) (allow_2band : Bool) (inchans : ℕ) (chanmap : ℕ → ℕ)
    (hsb : (allow_2band && decide (conf.FreqBands = 2)) = false)
    (hinj : ∀ i' < conf.Speakers, ∀ i < conf.Speakers,
      chanmap i' = chanmap i → i' = i)
    (i : ℕ) (hi : i < conf.Speakers) (j : ℕ)
    (hj : j < coeff_count (periphOf conf)) :
    (conf.ChanMask.testBit (acnOf (periphOf conf) j) = false →
      (mkA fromSN3D fromFuMa pow10 conf allow_2band inchans chanmap).mSingle
        (chanmap i) j = 0) ∧
    (conf.ChanMask.testBit (acnOf (periphOf conf) j) = true →
      (mkA fromSN3D fromFuMa pow10 conf allow_2band inchans chanmap).mSingle
        (chanmap i) j =
        conf.HFMatrix i (kcount conf.ChanMask (periphOf conf) 0 j) /
            GetAmbiScales fromSN3D fromFuMa conf.CoeffScale
              (acnOf (periphOf conf) j) *
          conf.HFOrderGain (OrderFromChannel.getD (acnOf (periphOf conf) j) 0)) := by
  have h1 := mkA_mSingle_of_single fromSN3D fromFuMa pow10 conf allow_2band
    inchans chanmap hsb
  have h2 := buildSingleMatrix_row conf
    (GetAmbiScales fromSN3D fromFuMa conf.CoeffScale) (periphOf conf) chanmap i
    hi (fun i' h1' h2' => hinj i' h1' i hi h2')
  constructor
  · intro hb
    rw [h1, h2, decodeRowLoop_apply, if_neg]
    rintro ⟨-, -, h⟩
    rw [hb] at h
    cases h
  · intro hb
    rw [h1, h2, decodeRowLoop_apply,
      if_pos ⟨Nat.zero_le j, by omega, hb⟩, Nat.zero_add]

/-- Witness for C1: the two-speaker horizontal example configuration,
speaker 0, working position `j = 2` (ACN 3, present in the mask). -/
theorem single_band_matrix_spec_witness :
    ((false && decide (exampleConfA.FreqBands = 2)) = false) ∧
    (∀ i' < exampleConfA.Speakers, ∀ i < exampleConfA.Speakers,
      (fun c : ℕ => c) i' = (fun c : ℕ => c) i → i' = i) ∧
    (0 < exampleConfA.Speakers) ∧
    (2 < coeff_count (periphOf exampleConfA)) ∧
    ((exampleConfA.ChanMask.testBit (acnOf (periphOf exampleConfA) 2) = false →
      (mkA onesTable onesTable onesQ exampleConfA false 4 (fun c => c)).mSingle
        ((fun c : ℕ => c) 0) 2 = 0) ∧
    (exampleConfA.ChanMask.testBit (acnOf (periphOf exampleConfA) 2) = true →
      (mkA onesTable onesTable onesQ exampleConfA false 4 (fun c => c)).mSingle
        ((fun c : ℕ => c) 0) 2 =
        exampleConfA.HFMatrix 0 (kcount exampleConfA.ChanMask
            (periphOf exampleConfA) 0 2) /
            GetAmbiScales onesTable onesTable exampleConfA.CoeffScale
              (acnOf (periphOf exampleConfA) 2) *
          exampleConfA.HFOrderGain
            (OrderFromChannel.getD (acnOf (periphOf exampleConfA) 2) 0))) :=
  ⟨by decide, by decide, by decide, by decide,
    single_band_matrix_spec onesTable onesTable onesQ exampleConfA false 4
      (fun c => c) (by decide) (by decide) 0 (by decide) 2 (by decide)⟩

/-- C2: Contract A, dual-band mode.  With `ratio = 10^(XOverRatio/40)`
(modelled by the external `pow10` applied to `XOverRatio / 40`), every stored
high-band coefficient equals the base value (raw HF coefficient divided by
the normalization scale and multiplied by the HF order gain) multiplied by
`ratio`, and every stored low-band coefficient equals the corresponding LF
base value divided by `ratio`; with `XOverRatio = 0` (so `ratio = 10^0 = 1`)
both bands reduce to the single-band formula with their per-order gains. -/
theorem dual_band_matrix_ratio_spec (fromSN3D fromFuMa : ℕ → ℚ) (pow10 : ℚ → ℚ)
    (conf : AmbDecConf) (allow_2band : Bool) (inchans : ℕ) (chanmap : ℕ → ℕ)
    (hdb : (allow_2band && decide (conf.FreqBands = 2)) = true)
    (hinj : ∀ i' < conf.Speakers, ∀ i < conf.Speakers,
      chanmap i' = chanmap i → i' = i)
    (i : ℕ) (hi : i < conf.Speakers) (j : ℕ)
    (hj : j < coeff_count (periphOf conf))
    (hb : conf.ChanMask.testBit (acnOf (periphOf conf) j) = true) :
    (((mkA fromSN3D fromFuMa pow10 conf allow_2band inchans chanmap).mDual
        (chanmap i)).1 j =
      conf.HFMatrix i (kcount conf.ChanMask (periphOf conf) 0 j) /
          GetAmbiScales fromSN3D fromFuMa conf.CoeffScale
            (acnOf (periphOf conf) j) *
        conf.HFOrderGain (OrderFromChannel.getD (acnOf (periphOf conf) j) 0) *
        pow10 (conf.XOverRatio / 40)) ∧
    (((mkA fromSN3D fromFuMa pow10 conf allow_2band inchans chanmap).mDual
        (chanmap i)).2 j =
      conf.LFMatrix i (kcount conf.ChanMask (periphOf conf) 0 j) /
          GetAmbiScales fromSN3D fromFuMa conf.CoeffScale
            (acnOf (periphOf conf) j) *
        conf.LFOrderGain (OrderFromChannel.getD (acnOf (periphOf conf) j) 0) /
        pow10 (conf.XOverRatio / 40)) ∧
    (conf.XOverRatio = 0 → pow10 0 = 1 →
      ((mkA fromSN3D fromFuMa pow10 conf allow_2band inchans chanmap).mDual
          (chanmap i)).1 j =
        conf.HFMatrix i (kcount conf.ChanMask (periphOf conf) 0 j) /
            GetAmbiScales fromSN3D fromFuMa conf.CoeffScale
              (acnOf (periphOf conf) j) *
          conf.HFOrderGain (OrderFromChannel.getD (acnOf (periphOf conf) j) 0) ∧
      ((mkA fromSN3D fromFuMa pow10 conf allow_2band inchans chanmap).mDual
          (chanmap i)).2 j =
        conf.LFMatrix i (kcount conf.ChanMask (periphOf conf) 0 j) /
            GetAmbiScales fromSN3D fromFuMa conf.CoeffScale
              (acnOf (periphOf conf) j) *
          conf.LFOrderGain (OrderFromChannel.getD (acnOf (periphOf conf) j) 0)) := by
  have h1 := mkA_mDual_of_dual fromSN3D fromFuMa pow10 conf allow_2band inchans
    chanmap hdb
  have h2 := buildDualMatrix_row conf
    (GetAmbiScales fromSN3D fromFuMa conf.CoeffScale) (periphOf conf)
    (pow10 (conf.XOverRatio / 40)) chanmap i hi
    (fun i' ha hb' => hinj i' ha i hi hb')
  rcases decodeDualRowLoop_apply conf.ChanMask (periphOf conf)
    (GetAmbiScales fromSN3D fromFuMa conf.CoeffScale) conf.HFOrderGain
    conf.LFOrderGain (conf.HFMatrix i) (conf.LFMatrix i)
    (pow10 (conf.XOverRatio / 40)) (coeff_count (periphOf conf)) 0 0
    (fun _ => 0, fun _ => 0) j with ⟨hfst, hsnd⟩
  rw [if_pos ⟨Nat.zero_le j, by omega, hb⟩] at hfst
  rw [if_pos ⟨Nat.zero_le j, by omega, hb⟩] at hsnd
  rw [Nat.zero_add] at hfst hsnd
  have main1 : ((mkA fromSN3D fromFuMa pow10 conf allow_2band inchans
      chanmap).mDual (chanmap i)).1 j =
      conf.HFMatrix i (kcount conf.ChanMask (periphOf conf) 0 j) /
          GetAmbiScales fromSN3D fromFuMa conf.CoeffScale
            (acnOf (periphOf conf) j) *
        conf.HFOrderGain (OrderFromChannel.getD (acnOf (periphOf conf) j) 0) *
        pow10 (conf.XOverRatio / 40) := by
    rw [h1, h2, hfst]
  have main2 : ((mkA fromSN3D fromFuMa pow10 conf allow_2band inchans
      chanmap).mDual (chanmap i)).2 j =
      conf.LFMatrix i (kcount conf.ChanMask (periphOf conf) 0 j) /
          GetAmbiScales fromSN3D fromFuMa conf.CoeffScale
            (acnOf (periphOf conf) j) *
        conf.LFOrderGain (OrderFromChannel.getD (acnOf (periphOf conf) j) 0) /
        pow10 (conf.XOverRatio / 40) := by
    rw [h1, h2, hsnd]
  refine ⟨main1, main2, fun hx0 hp1 => ⟨?_, ?_⟩⟩
  · rw [main1, hx0, zero_div, hp1, mul_one]
  · rw [main2, hx0, zero_div, hp1, div_one]

/-- Witness for C2: the dual-band example configuration (XOverRatio 0 dB),
speaker 1, working position `j = 1` (ACN 1). -/
theorem dual_band_matrix_ratio_spec_witness :
    ((true && decide (exampleConfDual.FreqBands = 2)) = true) ∧
    (∀ i' < exampleConfDual.Speakers, ∀ i < exampleConfDual.Speakers,
      (fun c : ℕ => c) i' = (fun c : ℕ => c) i → i' = i) ∧
    (1 < exampleConfDual.Speakers) ∧
    (1 < coeff_count (periphOf exampleConfDual)) ∧
    (exampleConfDual.ChanMask.testBit (acnOf (periphOf exampleConfDual) 1) =
      true) ∧
    (((mkA onesTable onesTable onesQ exampleConfDual true 4
        (fun c => c)).mDual ((fun c : ℕ => c) 1)).1 1 =
      exampleConfDual.HFMatrix 1 (kcount exampleConfDual.ChanMask
          (periphOf exampleConfDual) 0 1) /
          GetAmbiScales onesTable onesTable exampleConfDual.CoeffScale
            (acnOf (periphOf exampleConfDual) 1) *
        exampleConfDual.HFOrderGain
          (OrderFromChannel.getD (acnOf (periphOf exampleConfDual) 1) 0) *
        onesQ (exampleConfDual.XOverRatio / 40)) :=
  ⟨by decide, by decide, by decide, by decide, by decide,
    (dual_band_matrix_ratio_spec onesTable onesTable onesQ exampleConfDual true
      4 (fun c => c) (by decide) (by decide) 1 (by decide) 1 (by decide)
      (by decide)).1⟩

/-- C5: For both constructors, bit `k` of the enabled mask is set iff `k`
appears among the mapped output-channel indices (Contract A: the first
`Speakers.size()` entries of the channel map; Contract B: all entries of the
channel-map span), and the popcount of the mask is at most the number of
distinct mapped indices. -/
theorem enabled_mask_spec (fromSN3D fromFuMa : ℕ → ℚ) (pow10 : ℚ → ℚ)
    (conf : AmbDecConf) (allow_2band : Bool) (inchans : ℕ) (chanmap : ℕ → ℕ)
    (inchansB : ℕ) (chancoeffs : ℕ → ℕ → ℚ) (chanmapB : List ℕ)
    (hA : ∀ i < conf.Speakers, chanmap i < 32)
    (hB : ∀ c ∈ chanmapB, c < 32) :
    (∀ k, ((mkA fromSN3D fromFuMa pow10 conf allow_2band inchans
        chanmap).mEnabled.testBit k = true ↔
      k ∈ (List.range conf.Speakers).map chanmap)) ∧
    popcount (mkA fromSN3D fromFuMa pow10 conf allow_2band inchans
        chanmap).mEnabled ≤
      ((List.range conf.Speakers).map chanmap).dedup.length ∧
    (∀ k, ((mkB inchansB chancoeffs chanmapB).mEnabled.testBit k = true ↔
      k ∈ chanmapB)) ∧
    popcount (mkB inchansB chancoeffs chanmapB).mEnabled ≤
      chanmapB.dedup.length := by
  have hcA : ∀ c ∈ (List.range conf.Speakers).map chanmap, c < 32 := by
    intro c hc
    rcases List.mem_map.mp hc with ⟨i, hi, rfl⟩
    exact hA i (List.mem_range.mp hi)
  have hmA : (mkA fromSN3D fromFuMa pow10 conf allow_2band inchans
      chanmap).mEnabled = buildEnabled ((List.range conf.Speakers).map chanmap) :=
    rfl
  have hmB : (mkB inchansB chancoeffs chanmapB).mEnabled =
      buildEnabled chanmapB := rfl
  refine ⟨fun k => ?_, ?_, fun k => ?_, ?_⟩
  · rw [hmA]
    exact buildEnabled_testBit _ hcA k
  · rw [hmA]
    exact popcount_buildEnabled_le _ hcA
  · rw [hmB]
    exact buildEnabled_testBit _ hB k
  · rw [hmB]
    exact popcount_buildEnabled_le _ hB

/-- Witness for C5: the two-speaker example configuration mapped by the
identity, and a Contract-B channel map `[2, 2, 5]` with a duplicate. -/
theorem enabled_mask_spec_witness :
    (∀ i < exampleConfA.Speakers, (fun c : ℕ => c) i < 32) ∧
    (∀ c ∈ [2, 2, 5], c < 32) ∧
    ((∀ k, ((mkA onesTable onesTable onesQ exampleConfA false 4
        (fun c => c)).mEnabled.testBit k = true ↔
      k ∈ (List.range exampleConfA.Speakers).map (fun c => c))) ∧
    popcount (mkA onesTable onesTable onesQ exampleConfA false 4
        (fun c => c)).mEnabled ≤
      ((List.range exampleConfA.Speakers).map (fun c => c)).dedup.length ∧
    (∀ k, ((mkB 4 (fun _ _ => 1) [2, 2, 5]).mEnabled.testBit k = true ↔
      k ∈ [2, 2, 5])) ∧
    popcount (mkB 4 (fun _ _ => 1) [2, 2, 5]).mEnabled ≤
      ([2, 2, 5] : List ℕ).dedup.length) :=
  ⟨by decide, by decide,
    enabled_mask_spec onesTable onesTable onesQ exampleConfA false 4
      (fun c => c) 4 (fun _ _ => 1) [2, 2, 5] (by decide) (by decide)⟩

/-- C6: Contract B copies coefficients verbatim: for every entry of the
channel map in order, the first `inchans` coefficients of the same-position
table row are copied — with no normalization division and no order-gain
multiplication — into that output channel's single-band matrix row; in
particular a table row `[1, 0, 0, ...]` mapped to output channel 2 yields
exactly gain 1 from ambisonic channel 0 into output channel 2. -/
theorem coeff_table_copy_spec (inchans : ℕ) (chancoeffs : ℕ → ℕ → ℚ)
    (chanmap : List ℕ) (hnd : chanmap.Nodup) (pos : ℕ)
    (hpos : pos < chanmap.length) (j : ℕ) (hj : j < inchans) :
    (mkB inchans chancoeffs chanmap).mSingle (chanmap.get ⟨pos, hpos⟩) j =
      chancoeffs pos j ∧
    (mkB inchans unitRowTable [2]).mSingle 2 0 = 1 := by
  constructor
  · have hx : (pos, chanmap.get ⟨pos, hpos⟩) ∈ chanmap.enum := by
      rw [List.mem_enum_iff_getElem?]
      simp [List.getElem?_eq_getElem hpos]
    have hnd' : chanmap.enum.Nodup := by
      have hmap : (chanmap.enum.map Prod.fst).Nodup := by
        rw [List.enum_map_fst]
        exact List.nodup_range _
      exact hmap.of_map _
    have huniq : ∀ y ∈ chanmap.enum,
        y.2 = (pos, chanmap.get ⟨pos, hpos⟩).2 →
        y = (pos, chanmap.get ⟨pos, hpos⟩) := by
      rintro ⟨i', c'⟩ hy hyc
      have hi' : i' < chanmap.length := (List.mem_enum hy).1
      have hc' : c' = chanmap.get ⟨i', hi'⟩ := by
        have := List.mem_enum_iff_getElem?.mp hy
        simp only [List.getElem?_eq_getElem hi'] at this
        simpa [List.get_eq_getElem] using (Option.some_injective _ this.symm)
      have hget : chanmap.get ⟨i', hi'⟩ = chanmap.get ⟨pos, hpos⟩ := by
        rw [← hc']
        exact hyc
      have := (List.Nodup.get_inj_iff hnd).mp hget
      simp only [Fin.mk.injEq] at this
      simp [this, hc', List.get_eq_getElem]
    have hfold := foldl_update_mem (fun y : ℕ × ℕ => y.2)
      (fun y row => fun j => if j < inchans then chancoeffs y.1 j else row j)
      chanmap.enum (fun _ _ => (0 : ℚ)) (pos, chanmap.get ⟨pos, hpos⟩) hx hnd'
      huniq
    have hms : (mkB inchans chancoeffs chanmap).mSingle
        (chanmap.get ⟨pos, hpos⟩) = fun j =>
        if j < inchans then chancoeffs pos j else 0 := hfold
    rw [hms]
    simp [hj]
  · have h0 : 0 < inchans := Nat.lt_of_le_of_lt (Nat.zero_le j) hj
    have hred : (mkB inchans unitRowTable [2]).mSingle 2 0 =
        if 0 < inchans then unitRowTable 0 0 else 0 := rfl
    rw [hred, if_pos h0]
    simp [unitRowTable]

lemma GetHFOrderScales_getD (in_order out_order i : ℕ)
    (hi : i < MAX_AMBI_ORDER + 1) :
    (GetHFOrderScales in_order out_order).getD i 0 =
      if i < in_order + 1 then
        (GetDecoderHFScales in_order).getD i 0 /
          (GetDecoderHFScales out_order).getD i 0
      else 0 := by
  unfold GetHFOrderScales
  rw [List.getD_eq_getElem?_getD, List.getElem?_map, List.getElem?_range hi]
  rfl

lemma GetDecoderHFScales_pos (o i : ℕ) (hio : i ≤ o) (hi3 : i ≤ MAX_AMBI_ORDER) :
    0 < (GetDecoderHFScales o).getD i 0 := by
  unfold MAX_AMBI_ORDER at hi3
  by_cases h3 : 3 ≤ o
  · rw [GetDecoderHFScales, if_pos h3]
    interval_cases i <;> norm_num [Ambi3DDecoderHFScale3O]
  · have ho : o < 3 := by omega
    interval_cases o <;> interval_cases i <;>
      norm_num [GetDecoderHFScales, Ambi3DDecoderHFScale, Ambi3DDecoderHFScale2O]

/-- Witness for C6: a two-entry channel map `[4, 2]`, entry 1, coefficient
index 2 with a three-channel input. -/
theorem coeff_table_copy_spec_witness :
    (([4, 2] : List ℕ).Nodup) ∧ (1 < ([4, 2] : List ℕ).length) ∧
    ((2 : ℕ) < 3) ∧
    ((mkB 3 (fun p j => (p : ℚ) * 10 + j) [4, 2]).mSingle
        (([4, 2] : List ℕ).get ⟨1, by decide⟩) 2 =
      (fun p j => (p : ℚ) * 10 + j) 1 2 ∧
    (mkB 3 unitRowTable [2]).mSingle 2 0 = 1) :=
  ⟨by decide, by decide, by decide,
    coeff_table_copy_spec 3 (fun p j => (p : ℚ) * 10 + j) [4, 2] (by decide) 1
      (by decide) 2 (by decide)⟩

/-- C7: For every `inputOrder ≤ outputOrder` within the compile-time order
bound, the returned vector has length `MAX_AMBI_ORDER+1`; entry `i` for
`i ≤ inputOrder` is `inputCurve[i] / outputCurve[i]`; entries above
`inputOrder` are zero; the curves are selected by thresholds (order 0-1 the
base curve, all ones; order 2 the second-order curve; every order ≥ 3 the
same third-order curve); and equal orders give 1 at every index `0..n`. -/
theorem order_scales_spec (in_order out_order : ℕ)
    (hord : in_order ≤ out_order) (hin : in_order ≤ MAX_AMBI_ORDER) :
    (GetHFOrderScales in_order out_order).length = MAX_AMBI_ORDER + 1 ∧
    (∀ i ≤ in_order,
      (GetHFOrderScales in_order out_order).getD i 0 =
        (GetDecoderHFScales in_order).getD i 0 /
          (GetDecoderHFScales out_order).getD i 0) ∧
    (∀ i, in_order < i → i ≤ MAX_AMBI_ORDER →
      (GetHFOrderScales in_order out_order).getD i 0 = 0) ∧
    (GetDecoderHFScales 0 = Ambi3DDecoderHFScale ∧
      GetDecoderHFScales 1 = Ambi3DDecoderHFScale ∧
      Ambi3DDecoderHFScale = [1, 1, 0, 0] ∧
      GetDecoderHFScales 2 = Ambi3DDecoderHFScale2O ∧
      (∀ o, 3 ≤ o → GetDecoderHFScales o = Ambi3DDecoderHFScale3O)) ∧
    (∀ n ≤ MAX_AMBI_ORDER, ∀ i ≤ n, (GetHFOrderScales n n).getD i 0 = 1) := by
  refine ⟨?_, ?_, ?_, ⟨rfl, rfl, rfl, rfl, ?_⟩, ?_⟩
  · simp [GetHFOrderScales]
  · intro i hi
    rw [GetHFOrderScales_getD in_order out_order i (by omega), if_pos (by omega)]
  · intro i h1 h2
    rw [GetHFOrderScales_getD in_order out_order i (by omega), if_neg (by omega)]
  · intro o ho
    rw [GetDecoderHFScales, if_pos ho]
  · intro n hn i hi
    rw [GetHFOrderScales_getD n n i (by omega), if_pos (by omega)]
    exact div_self (ne_of_gt (GetDecoderHFScales_pos n i hi (by omega)))

/-- Witness for C7: input order 2, output order 3. -/
theorem order_scales_spec_witness :
    ((2 : ℕ) ≤ 3) ∧ ((2 : ℕ) ≤ MAX_AMBI_ORDER) ∧
    ((GetHFOrderScales 2 3).length = MAX_AMBI_ORDER + 1 ∧
    (∀ i ≤ 2,
      (GetHFOrderScales 2 3).getD i 0 =
        (GetDecoderHFScales 2).getD i 0 / (GetDecoderHFScales 3).getD i 0) ∧
    (∀ i, 2 < i → i ≤ MAX_AMBI_ORDER → (GetHFOrderScales 2 3).getD i 0 = 0) ∧
    (GetDecoderHFScales 0 = Ambi3DDecoderHFScale ∧
      GetDecoderHFScales 1 = Ambi3DDecoderHFScale ∧
      Ambi3DDecoderHFScale = [1, 1, 0, 0] ∧
      GetDecoderHFScales 2 = Ambi3DDecoderHFScale2O ∧
      (∀ o, 3 ≤ o → GetDecoderHFScales o = Ambi3DDecoderHFScale3O)) ∧
    (∀ n ≤ MAX_AMBI_ORDER, ∀ i ≤ n, (GetHFOrderScales n n).getD i 0 = 1)) :=
  ⟨by decide, by decide, order_scales_spec 2 3 (by decide) (by decide)⟩

/-- C9: under the preconditions `outputOrder ≥ inputOrder` and
`inputOrder ≤ MAX_AMBI_ORDER`, every curve-array index read by
`GetHFOrderScales` is in bounds, every divisor `outputCurve[i]` read for
`i ≤ inputOrder` is strictly positive (even though the stored curve arrays
contain zero entries beyond their explicit initializers), and hence every
returned entry at indices `0..inputOrder` is strictly positive (and, the
values being exact rationals, finite). -/
theorem order_scales_positive (in_order out_order : ℕ)
    (hord : in_order ≤ out_order) (hin : in_order ≤ MAX_AMBI_ORDER) :
    ∀ i ≤ in_order,
      i < MAX_AMBI_ORDER + 1 ∧
      0 < (GetDecoderHFScales out_order).getD i 0 ∧
      0 < (GetHFOrderScales in_order out_order).getD i 0 := by
  intro i hi
  have hib : i < MAX_AMBI_ORDER + 1 := by
    unfold MAX_AMBI_ORDER at hin ⊢
    omega
  have htgt : 0 < (GetDecoderHFScales out_order).getD i 0 :=
    GetDecoderHFScales_pos out_order i (by omega) (by omega)
  have hinp : 0 < (GetDecoderHFScales in_order).getD i 0 :=
    GetDecoderHFScales_pos in_order i hi (by omega)
  refine ⟨hib, htgt, ?_⟩
  rw [GetHFOrderScales_getD in_order out_order i hib, if_pos (by omega)]
  exact div_pos hinp htgt

/-- Witness for C9: input order 1, output order 3. -/
theorem order_scales_positive_witness :
    ((1 : ℕ) ≤ 3) ∧ ((1 : ℕ) ≤ MAX_AMBI_ORDER) ∧
    (∀ i ≤ 1,
      i < MAX_AMBI_ORDER + 1 ∧
      0 < (GetDecoderHFScales 3).getD i 0 ∧
      0 < (GetHFOrderScales 1 3).getD i 0) :=
  ⟨by decide, by decide, order_scales_positive 1 3 (by decide) (by decide)⟩

/-- C8: Frame property of `process`: in both single-band and dual-band mode,
every output buffer whose index has a clear bit in the enabled mask is left
completely unmodified by the call. -/
theorem process_frame_spec {σ : Type}
    (filt : σ → (ℕ → ℚ) → ℕ → σ × (ℕ → ℚ) × (ℕ → ℚ)) (dec : BFormatDec)
    (xover : ℕ → σ) (nOut : ℕ) (outBufs : ℕ → ℕ → ℚ) (ins : ℕ → ℕ → ℚ)
    (todo : ℕ) (htodo : 0 < todo) (idx : ℕ)
    (hdis : dec.mEnabled.testBit idx = false) :
    ∀ n, (process filt dec xover nOut outBufs ins todo).2 idx n =
      outBufs idx n := by
  intro n
  unfold process
  by_cases hdb : dec.mDualBand
  · simp only [hdb, if_true]
    rw [processLoopDual_apply, if_neg]
    rintro ⟨-, -, h⟩
    rw [Nat.sub_zero, hdis] at h
    cases h
  · rw [Bool.not_eq_true] at hdb
    simp only [hdb, Bool.false_eq_true, if_false]
    rw [processLoopSingle_apply, if_neg]
    rintro ⟨-, -, h⟩
    rw [Nat.sub_zero, hdis] at h
    cases h

/-- Witness for C8: the one-speaker decoder mapped to output 0; output
buffer 1 is disabled and keeps its contents. -/
theorem process_frame_spec_witness :
    ((0 : ℕ) < 8) ∧
    ((mkA onesTable onesTable onesQ oneSpeakerConf false 1
        (fun _ => 0)).mEnabled.testBit 1 = false) ∧
    (∀ n, (process idFilter (mkA onesTable onesTable onesQ oneSpeakerConf
        false 1 (fun _ => 0)) (fun _ => ()) 2 (fun i n => (i : ℚ) + n)
        (fun _ _ => 3) 8).2 1 n = (fun i n => (i : ℚ) + n) 1 n) :=
  ⟨by decide, by decide,
    process_frame_spec idFilter
      (mkA onesTable onesTable onesQ oneSpeakerConf false 1 (fun _ => 0))
      (fun _ => ()) 2 (fun i n => (i : ℚ) + n) (fun _ _ => 3) 8 (by decide) 1
      (by decide)⟩

lemma oneSpeaker_mSingle :
    (mkA onesTable onesTable onesQ oneSpeakerConf false 1
      (fun _ => 2)).mSingle 2 0 = 1 := by
  have h1 := mkA_mSingle_of_single onesTable onesTable onesQ oneSpeakerConf
    false 1 (fun _ => 2) rfl
  have h2 : buildSingleMatrix oneSpeakerConf
      (GetAmbiScales onesTable onesTable oneSpeakerConf.CoeffScale)
      (periphOf oneSpeakerConf) (fun _ => 2) 2 =
      decodeRowLoop oneSpeakerConf.ChanMask (periphOf oneSpeakerConf)
        (GetAmbiScales onesTable onesTable oneSpeakerConf.CoeffScale)
        oneSpeakerConf.HFOrderGain (oneSpeakerConf.HFMatrix 0)
        (coeff_count (periphOf oneSpeakerConf)) 0 0 (fun _ => 0) :=
    buildSingleMatrix_row oneSpeakerConf
      (GetAmbiScales onesTable onesTable oneSpeakerConf.CoeffScale)
      (periphOf oneSpeakerConf) (fun _ => 2) 0 (by norm_num [oneSpeakerConf])
      (fun i' hi' _ => by
        have : i' < 1 := by simpa [oneSpeakerConf] using hi'
        omega)
  rw [h1, h2, decodeRowLoop_apply, if_pos (by decide)]
  simp [oneSpeakerConf, GetAmbiScales, FromN3D]

/-- C3 fails as stated: the weighted-sum mixer accumulates into the output
buffer, so an output that does not start at zero does not end the call equal
to the pure mix sum.  Concretely: the one-speaker decoder with constant
input 5 and output buffers prefilled with 1 ends the call at 6, not at the
claimed sum 5. -/
theorem process_single_overwrite_cex :
    (process idFilter (mkA onesTable onesTable onesQ oneSpeakerConf false 1
        (fun _ => 2)) (fun _ => ()) 4 (fun _ _ => 1) (fun _ _ => 5) 1).2 2 0 ≠
      ∑ c ∈ Finset.range (mkA onesTable onesTable onesQ oneSpeakerConf false 1
          (fun _ => 2)).mNumChannels,
        (mkA onesTable onesTable onesQ oneSpeakerConf false 1
          (fun _ => 2)).mSingle 2 c * (fun _ _ : ℕ => (5 : ℚ)) c 0 := by
  have hnc : (mkA onesTable onesTable onesQ oneSpeakerConf false 1
      (fun _ => 2)).mNumChannels = 1 := rfl
  have hrhs : (∑ c ∈ Finset.range (mkA onesTable onesTable onesQ oneSpeakerConf
      false 1 (fun _ => 2)).mNumChannels,
      (mkA onesTable onesTable onesQ oneSpeakerConf false 1
        (fun _ => 2)).mSingle 2 c * (fun _ _ : ℕ => (5 : ℚ)) c 0) = 5 := by
    rw [hnc, Finset.sum_range_one, oneSpeaker_mSingle]
    norm_num
  have hlhs : (process idFilter (mkA onesTable onesTable onesQ oneSpeakerConf
      false 1 (fun _ => 2)) (fun _ => ()) 4 (fun _ _ => 1)
      (fun _ _ => 5) 1).2 2 0 = 6 := by
    unfold process
    have hdb : (mkA onesTable onesTable onesQ oneSpeakerConf false 1
        (fun _ => 2)).mDualBand = false := rfl
    simp only [hdb, Bool.false_eq_true, if_false]
    rw [processLoopSingle_apply, if_pos ⟨by omega, by norm_num, by decide⟩]
    simp only [MixRowSamples, hnc]
    rw [if_pos (by norm_num), Finset.sum_range_one, oneSpeaker_mSingle]
    norm_num
  rw [hlhs, hrhs]
  norm_num

/-- C3 (amended): `MixRowSamples` accumulates into the output, so for every
call with `SamplesToDo > 0` an enabled output channel ends the call with its
prior contents plus `Σ matrixRow[c] * input[c][n]`; on zero-initialized
output buffers this is the claimed pure sum, and in particular the
one-speaker configuration (channel mask `{ACN 0}`, HF coefficient 1, N3D,
order gain 1) maps a constant input `v` on ambisonic channel 0 to output `v`
on the mapped output channel. -/
theorem process_single_band_accumulate {σ : Type}
    (filt : σ → (ℕ → ℚ) → ℕ → σ × (ℕ → ℚ) × (ℕ → ℚ)) (dec : BFormatDec)
    (hdb : dec.mDualBand = false) (xover : ℕ → σ) (nOut : ℕ)
    (outBufs ins : ℕ → ℕ → ℚ) (todo : ℕ) (htodo : 0 < todo) (idx : ℕ)
    (hidx : idx < nOut) (hen : dec.mEnabled.testBit idx = true) (n : ℕ)
    (hn : n < todo) :
    ((process filt dec xover nOut outBufs ins todo).2 idx n =
      outBufs idx n +
        ∑ c ∈ Finset.range dec.mNumChannels, dec.mSingle idx c * ins c n) ∧
    (∀ (v : ℚ) (todo' n' : ℕ), n' < todo' →
      (process idFilter (mkA onesTable onesTable onesQ oneSpeakerConf false 1
          (fun _ => 2)) (fun _ => ()) 4 (fun _ _ => 0)
          (fun _ _ => v) todo').2 2 n' = v) := by
  have gen : ∀ (σ' : Type) (filt' : σ' → (ℕ → ℚ) → ℕ → σ' × (ℕ → ℚ) × (ℕ → ℚ))
      (dec' : BFormatDec), dec'.mDualBand = false →
      ∀ (xover' : ℕ → σ') (nOut' : ℕ) (outBufs' ins' : ℕ → ℕ → ℚ)
        (todo' idx' : ℕ), idx' < nOut' →
        dec'.mEnabled.testBit idx' = true →
        ∀ n' : ℕ, n' < todo' →
        (process filt' dec' xover' nOut' outBufs' ins' todo').2 idx' n' =
          outBufs' idx' n' +
            ∑ c ∈ Finset.range dec'.mNumChannels,
              dec'.mSingle idx' c * ins' c n' := by
    intro σ' filt' dec' hdb' xover' nOut' outBufs' ins' todo' idx' hidx' hen'
      n' hn'
    unfold process
    simp only [hdb', Bool.false_eq_true, if_false]
    rw [processLoopSingle_apply,
      if_pos ⟨Nat.zero_le idx', by omega, by rw [Nat.sub_zero]; exact hen'⟩]
    simp only [MixRowSamples]
    rw [if_pos hn']
  refine ⟨gen σ filt dec hdb xover nOut outBufs ins todo idx hidx hen n hn,
    fun v todo' n' hn' => ?_⟩
  rw [gen Unit idFilter
    (mkA onesTable onesTable onesQ oneSpeakerConf false 1 (fun _ => 2)) rfl
    (fun _ => ()) 4 (fun _ _ => 0) (fun _ _ => v) todo' 2 (by norm_num)
    (by decide) n' hn']
  have hnc : (mkA onesTable onesTable onesQ oneSpeakerConf false 1
      (fun _ => 2)).mNumChannels = 1 := rfl
  rw [hnc, Finset.sum_range_one, oneSpeaker_mSingle]
  norm_num

/-- Witness for C3 (amended): the one-speaker decoder, output buffers
prefilled with 7, constant input 5, one sample. -/
theorem process_single_band_accumulate_witness :
    ((mkA onesTable onesTable onesQ oneSpeakerConf false 1
        (fun _ => 2)).mDualBand = false) ∧
    ((0 : ℕ) < 1) ∧ ((2 : ℕ) < 4) ∧
    ((mkA onesTable onesTable onesQ oneSpeakerConf false 1
        (fun _ => 2)).mEnabled.testBit 2 = true) ∧
    (((process idFilter (mkA onesTable onesTable onesQ oneSpeakerConf false 1
          (fun _ => 2)) (fun _ => ()) 4 (fun _ _ => 7) (fun _ _ => 5) 1).2 2 0 =
      (fun _ _ : ℕ => (7 : ℚ)) 2 0 +
        ∑ c ∈ Finset.range (mkA onesTable onesTable onesQ oneSpeakerConf
            false 1 (fun _ => 2)).mNumChannels,
          (mkA onesTable onesTable onesQ oneSpeakerConf false 1
            (fun _ => 2)).mSingle 2 c * (fun _ _ : ℕ => (5 : ℚ)) c 0) ∧
    (∀ (v : ℚ) (todo' n' : ℕ), n' < todo' →
      (process idFilter (mkA onesTable onesTable onesQ oneSpeakerConf false 1
          (fun _ => 2)) (fun _ => ()) 4 (fun _ _ => 0)
          (fun _ _ => v) todo').2 2 n' = v)) :=
  ⟨rfl, by decide, by decide, by decide,
    process_single_band_accumulate idFilter
      (mkA onesTable onesTable onesQ oneSpeakerConf false 1 (fun _ => 2)) rfl
      (fun _ => ()) 4 (fun _ _ => 7) (fun _ _ => 5) 1 (by decide) 2 (by decide)
      (by decide) 0 (by decide)⟩

/-- C4: Dual-band `process`: each call first runs every one of the
`mNumChannels` input channels through that channel's stateful crossover
filter (each filter state is advanced exactly once, states beyond the channel
count are untouched), and an enabled output channel then receives the
high-band matrix row accumulated over the high-band filter outputs followed
by the low-band row over the low-band filter outputs, into the same buffer:
two accumulation passes on top of the prior contents. -/
theorem process_dual_band_spec {σ : Type}
    (filt : σ → (ℕ → ℚ) → ℕ → σ × (ℕ → ℚ) × (ℕ → ℚ)) (dec : BFormatDec)
    (hdb : dec.mDualBand = true) (xover : ℕ → σ) (nOut : ℕ)
    (outBufs ins : ℕ → ℕ → ℚ) (todo : ℕ) (htodo : 0 < todo) (idx : ℕ)
    (hidx : idx < nOut) (hen : dec.mEnabled.testBit idx = true) :
    (∀ i < dec.mNumChannels,
      (process filt dec xover nOut outBufs ins todo).1 i =
        (filt (xover i) (ins i) todo).1) ∧
    (∀ i, dec.mNumChannels ≤ i →
      (process filt dec xover nOut outBufs ins todo).1 i = xover i) ∧
    (∀ n < todo,
      (process filt dec xover nOut outBufs ins todo).2 idx n =
        outBufs idx n +
          (∑ c ∈ Finset.range dec.mNumChannels,
            (dec.mDual idx).1 c * (filt (xover c) (ins c) todo).2.1 n) +
          ∑ c ∈ Finset.range dec.mNumChannels,
            (dec.mDual idx).2 c * (filt (xover c) (ins c) todo).2.2 n) := by
  unfold process
  simp only [hdb, if_true]
  refine ⟨fun i hi => ?_, fun i hi => ?_, fun n hn => ?_⟩
  · simp [hi]
  · simp [Nat.not_lt.mpr hi]
  · rw [processLoopDual_apply,
      if_pos ⟨Nat.zero_le idx, by omega, by rw [Nat.sub_zero]; exact hen⟩]
    simp [MixRowSamples, hn]

/-- Witness for C4: the dual-band example decoder over two input channels,
with the trivial filter model, output channel 1, one sample. -/
theorem process_dual_band_spec_witness :
    ((mkA onesTable onesTable onesQ exampleConfDual true 2
        (fun c => c)).mDualBand = true) ∧
    ((0 : ℕ) < 1) ∧ ((1 : ℕ) < 2) ∧
    ((mkA onesTable onesTable onesQ exampleConfDual true 2
        (fun c => c)).mEnabled.testBit 1 = true) ∧
    ((∀ i < (mkA onesTable onesTable onesQ exampleConfDual true 2
        (fun c => c)).mNumChannels,
      (process idFilter (mkA onesTable onesTable onesQ exampleConfDual true 2
          (fun c => c)) (fun _ => ()) 2 (fun _ _ => 0) (fun _ _ => 3) 1).1 i =
        (idFilter ((fun _ => ()) i) ((fun _ _ : ℕ => (3 : ℚ)) i) 1).1) ∧
    (∀ i, (mkA onesTable onesTable onesQ exampleConfDual true 2
        (fun c => c)).mNumChannels ≤ i →
      (process idFilter (mkA onesTable onesTable onesQ exampleConfDual true 2
          (fun c => c)) (fun _ => ()) 2 (fun _ _ => 0) (fun _ _ => 3) 1).1 i =
        (fun _ => ()) i) ∧
    (∀ n < 1,
      (process idFilter (mkA onesTable onesTable onesQ exampleConfDual true 2
          (fun c => c)) (fun _ => ()) 2 (fun _ _ => 0) (fun _ _ => 3) 1).2 1 n =
        (fun _ _ : ℕ => (0 : ℚ)) 1 n +
          (∑ c ∈ Finset.range (mkA onesTable onesTable onesQ exampleConfDual
              true 2 (fun c => c)).mNumChannels,
            ((mkA onesTable onesTable onesQ exampleConfDual true 2
              (fun c => c)).mDual 1).1 c *
              (idFilter ((fun _ => ()) c) ((fun _ _ : ℕ => (3 : ℚ)) c) 1).2.1 n) +
          ∑ c ∈ Finset.range (mkA onesTable onesTable onesQ exampleConfDual
              true 2 (fun c => c)).mNumChannels,
            ((mkA onesTable onesTable onesQ exampleConfDual true 2
              (fun c => c)).mDual 1).2 c *
              (idFilter ((fun _ => ()) c) ((fun _ _ : ℕ => (3 : ℚ)) c) 1).2.2 n)) :=
  ⟨rfl, by decide, by decide, by decide,
    process_dual_band_spec idFilter
      (mkA onesTable onesTable onesQ exampleConfDual true 2 (fun c => c)) rfl
      (fun _ => ()) 2 (fun _ _ => 0) (fun _ _ => 3) 1 (by decide) 1 (by decide)
      (by decide)⟩

/-- C10: the Contract A constructor depends on the channel map only through
its first `Speakers.size()` entries: two channel maps that agree on those
entries (all other inputs equal) produce an identical enabled mask and
identical single- and dual-band decoding matrices. -/
theorem mkA_chanmap_extensional (fromSN3D fromFuMa : ℕ → ℚ) (pow10 : ℚ → ℚ)
    (conf : AmbDecConf) (allow_2band : Bool) (inchans : ℕ)
    (chanmap1 chanmap2 : ℕ → ℕ)
    (hagree : ∀ i < conf.Speakers, chanmap1 i = chanmap2 i) :
    (mkA fromSN3D fromFuMa pow10 conf allow_2band inchans chanmap1).mEnabled =
      (mkA fromSN3D fromFuMa pow10 conf allow_2band inchans chanmap2).mEnabled ∧
    (mkA fromSN3D fromFuMa pow10 conf allow_2band inchans chanmap1).mSingle =
      (mkA fromSN3D fromFuMa pow10 conf allow_2band inchans chanmap2).mSingle ∧
    (mkA fromSN3D fromFuMa pow10 conf allow_2band inchans chanmap1).mDual =
      (mkA fromSN3D fromFuMa pow10 conf allow_2band inchans chanmap2).mDual := by
  have hmap : (List.range conf.Speakers).map chanmap1 =
      (List.range conf.Speakers).map chanmap2 :=
    List.map_congr_left (fun i hi => hagree i (List.mem_range.mp hi))
  have hsingle : ∀ coeff_scale periphonic,
      buildSingleMatrix conf coeff_scale periphonic chanmap1 =
        buildSingleMatrix conf coeff_scale periphonic chanmap2 := by
    intro coeff_scale periphonic
    unfold buildSingleMatrix
    apply List.foldl_ext
    intro mtx i hi
    rw [hagree i (List.mem_range.mp hi)]
  have hdual : ∀ coeff_scale periphonic ratio,
      buildDualMatrix conf coeff_scale periphonic ratio chanmap1 =
        buildDualMatrix conf coeff_scale periphonic ratio chanmap2 := by
    intro coeff_scale periphonic ratio
    unfold buildDualMatrix
    apply List.foldl_ext
    intro mtx i hi
    rw [hagree i (List.mem_range.mp hi)]
  refine ⟨?_, ?_, ?_⟩
  · show buildEnabled ((List.range conf.Speakers).map chanmap1) =
      buildEnabled ((List.range conf.Speakers).map chanmap2)
    rw [hmap]
  · show (if (allow_2band && decide (conf.FreqBands = 2)) then fun _ _ => 0
        else buildSingleMatrix conf
          (GetAmbiScales fromSN3D fromFuMa conf.CoeffScale) (periphOf conf)
          chanmap1) =
      (if (allow_2band && decide (conf.FreqBands = 2)) then fun _ _ => 0
        else buildSingleMatrix conf
          (GetAmbiScales fromSN3D fromFuMa conf.CoeffScale) (periphOf conf)
          chanmap2)
    rw [hsingle]
  · show (if (allow_2band && decide (conf.FreqBands = 2)) then
        buildDualMatrix conf (GetAmbiScales fromSN3D fromFuMa conf.CoeffScale)
          (periphOf conf) (pow10 (conf.XOverRatio / 40)) chanmap1
      else fun _ => (fun _ => 0, fun _ => 0)) =
      (if (allow_2band && decide (conf.FreqBands = 2)) then
        buildDualMatrix conf (GetAmbiScales fromSN3D fromFuMa conf.CoeffScale)
          (periphOf conf) (pow10 (conf.XOverRatio / 40)) chanmap2
      else fun _ => (fun _ => 0, fun _ => 0))
    rw [hdual]

/-- Witness for C10: channel maps agreeing on the two speaker slots of the
example configuration and wildly different beyond them. -/
theorem mkA_chanmap_extensional_witness :
    (∀ i < exampleConfA.Speakers,
      (fun c : ℕ => c) i = (fun c : ℕ => if c < 2 then c else c + 99) i) ∧
    ((mkA onesTable onesTable onesQ exampleConfA false 4
        (fun c => c)).mEnabled =
      (mkA onesTable onesTable onesQ exampleConfA false 4
        (fun c => if c < 2 then c else c + 99)).mEnabled ∧
    (mkA onesTable onesTable onesQ exampleConfA false 4
        (fun c => c)).mSingle =
      (mkA onesTable onesTable onesQ exampleConfA false 4
        (fun c => if c < 2 then c else c + 99)).mSingle ∧
    (mkA onesTable onesTable onesQ exampleConfA false 4
        (fun c => c)).mDual =
      (mkA onesTable onesTable onesQ exampleConfA false 4
        (fun c => if c < 2 then c else c + 99)).mDual) :=
  ⟨by decide,
    mkA_chanmap_extensional onesTable onesTable onesQ exampleConfA false 4
      (fun c => c) (fun c => if c < 2 then c else c + 99) (by decide)⟩

end BFormat
